import Mathlib

/-!
Verification of the spider crawler (src/Arachnida/spider/src/main.rs).

The embedding models:
* `is_valid_image` (main.rs lines 59-72) over lists of characters;
* the filename-derivation steps of `download_image` (lines 87-104) over
  lists of bytes, with byte-index slicing modelled exactly as in Rust,
  including the panic on a slice index that is not a character boundary;
* `find_links` (lines 113-133) with URL parsing and joining abstracted,
  mirroring the `domain()` comparison of the source;
* the download loops of `crawl_recursive` (lines 156-160) and of the flat
  mode in `main` (lines 193-196);
* `crawl_recursive` (lines 135-170) as a fuelled state-passing function,
  where the fuel bounds the call-stack depth and `none` means the fuel ran
  out; HTTP fetching, HTML parsing and URL resolution are abstracted into a
  `Site` oracle, and per-image downloading into a boolean oracle.
-/

/-! ## Image validator: main.rs lines 59-72 -/

/-- Rust `char::to_lowercase` restricted to the ASCII range; the special
multi-character Unicode lowercasings do not involve the ASCII-only
extension strings the validator compares against. -/
def lowerChar (c : Char) : Char :=
  if 'A' ≤ c ∧ c ≤ 'Z' then Char.ofNat (c.toNat + 32) else c

/-- `url.to_lowercase()` (main.rs line 60). -/
def toLowerL (s : List Char) : List Char := s.map lowerChar

/-- `lower_url.split('?').next().unwrap_or("")` (main.rs line 64): the part
of the string before the first question mark, or the whole string. -/
def stripQuery (s : List Char) : List Char := s.takeWhile (fun c => c ≠ '?')

/-- Boolean prefix test on character lists. -/
def isPrefixB : List Char → List Char → Bool
  | [], _ => true
  | _ :: _, [] => false
  | a :: as, b :: bs => a == b && isPrefixB as bs

/-- Rust `str::ends_with` on character lists. -/
def endsWithB (suf s : List Char) : Bool := isPrefixB suf.reverse s.reverse

/-- Rust `str::contains` with a string pattern, on character lists. -/
def hasSub (pat : List Char) : List Char → Bool
  | [] => pat.isEmpty
  | c :: rest => isPrefixB pat (c :: rest) || hasSub pat rest

/-- `valid_extensions` (main.rs line 62). -/
def valid_extensions : List (List Char) :=
  [".jpg".data, ".jpeg".data, ".png".data, ".gif".data, ".bmp".data]

/-- `is_valid_image` (main.rs lines 59-72): the extension test runs on the
query-stripped lower-cased URL; the `.svg` substring test runs on the full
lower-cased URL and forces the result to `false`. -/
def is_valid_image (url : List Char) : Bool :=
  let lower_url := toLowerL url
  let has_valid_ext :=
    valid_extensions.any (fun ext => endsWithB ext (stripQuery lower_url))
  if hasSub ".svg".data lower_url then false else has_valid_ext

/-! ## Downloader filename derivation: main.rs lines 87-104

Rust strings are UTF-8 byte sequences and the truncation logic of
`download_image` indexes them by byte; the model therefore works on lists
of bytes (`List Nat`). A Rust byte slice `&s[..k]`, and `String::truncate`
with a new length below the current one, panic when the index is not a
character boundary; the model returns `NameResult.panic` there. -/

/-- ASCII string literal as a byte list. -/
def strB (s : String) : List Nat := s.data.map Char.toNat

/-- Rust `str::split(sep)` on byte lists: always yields at least one
(possibly empty) piece. -/
def splitOnB (sep : Nat) : List Nat → List (List Nat)
  | [] => [[]]
  | b :: rest =>
    if b = sep then [] :: splitOnB sep rest
    else
      match splitOnB sep rest with
      | s :: ss => (b :: s) :: ss
      | [] => [[b]]

/-- `url.split('/').last().unwrap_or("image")` (main.rs line 87). -/
def lastSegment (url : List Nat) : List Nat :=
  match (splitOnB 0x2F url).getLast? with
  | some s => s
  | none => strB "image"

/-- `filename.find('?')` followed by `filename.truncate(pos)`
(main.rs lines 89-91): keep the bytes before the first question mark.
The index returned by `find` is the byte index of an ASCII character and
hence always a character boundary. -/
def truncAtQuery (s : List Nat) : List Nat := s.takeWhile (fun b => b ≠ 0x3F)

/-- Value of an ASCII hex digit byte. -/
def hexVal (b : Nat) : Option Nat :=
  if 0x30 ≤ b ∧ b ≤ 0x39 then some (b - 0x30)
  else if 0x41 ≤ b ∧ b ≤ 0x46 then some (b - 55)
  else if 0x61 ≤ b ∧ b ≤ 0x66 then some (b - 87)
  else none

/-- Percent-decoding at the byte level, as the `urlencoding` crate does it:
a percent byte followed by two hex digits becomes the denoted byte; a
malformed percent sequence passes the percent byte through and resumes at
the next byte. -/
def pctDecode : List Nat → List Nat
  | [] => []
  | 0x25 :: h :: l :: rest =>
    match hexVal h, hexVal l with
    | some hv, some lv => (16 * hv + lv) :: pctDecode rest
    | _, _ => 0x25 :: pctDecode (h :: l :: rest)
  | b :: rest => b :: pctDecode rest

/-- Is a byte a UTF-8 continuation byte position value (0x80-0xBF)? -/
def isCont (b : Nat) : Bool := 0x80 ≤ b && b ≤ 0xBF

/-- UTF-8 validity of a byte list, as `String::from_utf8` checks it. -/
def validUtf8 : List Nat → Bool
  | [] => true
  | b :: rest =>
    if b ≤ 0x7F then validUtf8 rest
    else if 0xC2 ≤ b ∧ b ≤ 0xDF then
      match rest with
      | c1 :: r => isCont c1 && validUtf8 r
      | [] => false
    else if b = 0xE0 then
      match rest with
      | c1 :: c2 :: r => (0xA0 ≤ c1 && c1 ≤ 0xBF) && isCont c2 && validUtf8 r
      | _ => false
    else if (0xE1 ≤ b ∧ b ≤ 0xEC) ∨ b = 0xEE ∨ b = 0xEF then
      match rest with
      | c1 :: c2 :: r => isCont c1 && isCont c2 && validUtf8 r
      | _ => false
    else if b = 0xED then
      match rest with
      | c1 :: c2 :: r => (0x80 ≤ c1 && c1 ≤ 0x9F) && isCont c2 && validUtf8 r
      | _ => false
    else if b = 0xF0 then
      match rest with
      | c1 :: c2 :: c3 :: r =>
        (0x90 ≤ c1 && c1 ≤ 0xBF) && isCont c2 && isCont c3 && validUtf8 r
      | _ => false
    else if 0xF1 ≤ b ∧ b ≤ 0xF3 then
      match rest with
      | c1 :: c2 :: c3 :: r => isCont c1 && isCont c2 && isCont c3 && validUtf8 r
      | _ => false
    else if b = 0xF4 then
      match rest with
      | c1 :: c2 :: c3 :: r =>
        (0x80 ≤ c1 && c1 ≤ 0x8F) && isCont c2 && isCont c3 && validUtf8 r
      | _ => false
    else false

/-- `urlencoding::decode(&filename)?` (main.rs line 93): decode the percent
sequences, then require the result to be valid UTF-8; `none` is the decode
error, which `download_image` propagates as a per-image error. -/
def decodeFilename (s : List Nat) : Option (List Nat) :=
  let d := pctDecode s
  if validUtf8 d then some d else none

/-- Rust `str::is_char_boundary` on the byte-list model. -/
def isBoundary (s : List Nat) (k : Nat) : Bool :=
  if k = 0 then true
  else
    match s[k]? with
    | some b => decide (b < 0x80) || decide (0xC0 ≤ b)
    | none => k == s.length

/-- A Rust byte slice `&s[..k]` (and `String::truncate` for `k` below the
length): defined only when `k` is in range and a character boundary;
`none` models the panic. -/
def byteTake (s : List Nat) (k : Nat) : Option (List Nat) :=
  if k ≤ s.length ∧ isBoundary s k then some (s.take k) else none

/-- `filename.rfind('.')` (main.rs line 97): byte index of the last dot. -/
def rfindDot : List Nat → Option Nat
  | [] => none
  | x :: xs =>
    match rfindDot xs with
    | some i => some (i + 1)
    | none => if x = 0x2E then some 0 else none

/-- Outcome of the filename derivation: a name, a propagated decode error,
or a panic of the Rust process. -/
inductive NameResult where
  | ok (name : List Nat)
  | err
  | panic
deriving DecidableEq

/-- The name as it stands after query-stripping and percent-decoding
(main.rs lines 87-93), before the length cap. -/
def decodedName (url : List Nat) : Option (List Nat) :=
  decodeFilename (truncAtQuery (lastSegment url))

/-- The substring from the last dot onward, empty when there is no dot. -/
def extSuffix (d : List Nat) : List Nat :=
  match rfindDot d with
  | some p => d.drop p
  | none => []

/-- The filename-derivation steps of `download_image` (main.rs lines
87-104): last slash-separated segment, query strip, percent-decode, and the
200-byte cap that keeps the extension (`MAX_LEN` is 200; `200 - ext.len()`
is Rust saturating subtraction, which is Nat subtraction). -/
def derive_filename (url : List Nat) : NameResult :=
  match decodedName url with
  | none => NameResult.err
  | some filename =>
    if filename.length > 200 then
      match rfindDot filename with
      | some ext_pos =>
        let ext := filename.drop ext_pos
        match byteTake filename (200 - ext.length) with
        | some name_part => NameResult.ok (name_part ++ ext)
        | none => NameResult.panic
      | none =>
        match byteTake filename 200 with
        | some f => NameResult.ok f
        | none => NameResult.panic
    else NameResult.ok filename

/-! ## Link extractor: main.rs lines 113-133

The `url` crate is external: a parsed URL is modelled by its host
component, together with its serialization (what `to_string` would push).
`Url::domain()` returns the host only when it is a registered domain name;
for an IP-address host (and for a URL without a host) it returns `None`,
and `find_links` compares exactly these `domain()` values. `base.join` is
an oracle mapping an `href` attribute value to the resolved URL, or `none`
when joining fails. -/

/-- The host component of a parsed URL, as the `url` crate classifies it. -/
inductive UrlHost where
  | domain (d : String)
  | ipv4 (a : String)
  | ipv6 (a : String)
deriving DecidableEq

/-- A parsed absolute URL: its host, if any, and its serialization. Hosts
are stored as the parser normalizes them (domain names lower-cased). -/
structure PUrl where
  host : Option UrlHost
  serial : String
deriving DecidableEq

/-- `Url::domain()`: the host when it is a named domain, otherwise none. -/
def PUrl.domainOf (u : PUrl) : Option String :=
  match u.host with
  | some (UrlHost.domain d) => some d
  | _ => none

/-- `find_links` (main.rs lines 113-133): for each `href` attribute value in
document order, join it against the base (silently dropping failures) and
keep the result when its `domain()` equals the base `domain()`. -/
def find_links (join : String → Option PUrl) (base : PUrl)
    (hrefs : List String) : List PUrl :=
  match hrefs with
  | [] => []
  | href :: rest =>
    match join href with
    | some absolute_url =>
      if absolute_url.domainOf = base.domainOf then
        absolute_url :: find_links join base rest
      else find_links join base rest
    | none => find_links join base rest

/-! ## Per-image download loops: main.rs lines 156-160 and 193-196

`download_image` touches the network and the filesystem; it is abstracted
into an oracle `dl : String → Bool` (`true` is `Ok`). Each loop is recorded
as the list of images it attempts, paired with the download outcomes. -/

/-- The recursive-mode loop (main.rs lines 156-160): a failed download is
caught by `if let Err`, logged, and the loop continues. -/
def downloadLoopCaught (dl : String → Bool) : List String → List (String × Bool)
  | [] => []
  | u :: us => (u, dl u) :: downloadLoopCaught dl us

/-- The flat-mode loop (main.rs lines 193-196): `download_image(...)?`
propagates the first failure out of `main`, so the loop stops there; the
boolean result is `false` when the run was aborted. -/
def downloadLoopFlat (dl : String → Bool) : List String → List (String × Bool) × Bool
  | [] => ([], true)
  | u :: us =>
    if dl u then
      let r := downloadLoopFlat dl us
      ((u, true) :: r.1, r.2)
    else ([(u, false)], false)

/-- One fetched page, as the crawl engine consumes it: the result of
`find_images` and of `find_links` on its markup, each `none` when the
extraction itself returns `Err` (which `?` propagates). -/
structure Page where
  imgs : Option (List String)
  links : Option (List String)
deriving DecidableEq

/-- The flat mode of `main` (main.rs lines 182-196): fetch the seed, extract
images, filter through `is_valid_image`, then run the flat download loop.
Returns the attempted downloads and whether the run completed without an
aborting error. -/
def flatRun (site : String → Option Page) (dl : String → Bool)
    (seed : String) : List (String × Bool) × Bool :=
  match site seed with
  | none => ([], false)
  | some pg =>
    match pg.imgs with
    | none => ([], false)
    | some images =>
      downloadLoopFlat dl (images.filter (fun u => is_valid_image u.data))

/-! ## Crawl engine: main.rs lines 135-170

`crawl_recursive` is embedded as a fuelled function: the fuel bounds the
depth of the Rust call stack, one unit per nested `crawl_recursive` frame,
and `none` means the fuel ran out (the theorems show a fuel of
`max_depth + 2` always suffices, which is the termination of the source
recursion). The mutable state threaded by reference is made explicit:
`visited`, the order in which pages were fetched, and the attempted image
downloads. The boolean paired with the final state is `true` for `Ok(())`
and `false` for a propagated `Err`, after which every enclosing loop stops
via `?`. -/

/-- The fixed data of one crawl run: the fetch oracle (composition of
`fetch_html`, `find_images` and `find_links`, with `none` for a failed
page fetch), the `download_image` outcome oracle, and `max_depth`. -/
structure Crawler where
  site : String → Option Page
  dl : String → Bool
  max_depth : Nat

/-- The mutable state of `crawl_recursive`: the visited set (a list with
membership, inserted into only when absent), the fetch log in order, and
the attempted image downloads with their outcomes. -/
structure CState where
  visited : List String
  fetched : List String
  attempted : List (String × Bool)
deriving DecidableEq

/-- The `for link in links` loop of `crawl_recursive` (main.rs lines
164-166): each iteration calls `crawl_recursive(link, depth + 1, ...)?`,
so a propagated error stops the loop. The recursive call (one stack frame
deeper) is passed in as `rec_fn`. -/
def crawl_children (rec_fn : String → Nat → CState → Option (CState × Bool)) :
    List String → Nat → CState → Option (CState × Bool)
  | [], _, s => some (s, true)
  | l :: ls, depth, s =>
    match rec_fn l depth s with
    | none => none
    | some (s2, false) => some (s2, false)
    | some (s2, true) => crawl_children rec_fn ls depth s2

/-- `crawl_recursive` (main.rs lines 135-170) with explicit stack fuel:
one fuel unit per nested `crawl_recursive` stack frame. Control flow of
the source: return `Ok` when `depth > max_depth` or the URL was visited;
insert into the visited set; fetch the page (`?` on failure); extract and
filter images (`?` on failure); run the caught download loop; when
`depth < max_depth`, extract links (`?` on failure) and recurse over them
in order with `depth + 1`. -/
def crawl_recursive (C : Crawler) :
    Nat → String → Nat → CState → Option (CState × Bool)
  | 0 => fun _ _ _ => none
  | Nat.succ fuel => fun url depth s =>
    if depth > C.max_depth ∨ url ∈ s.visited then some (s, true)
    else
      let s1 : CState := ⟨url :: s.visited, s.fetched, s.attempted⟩
      match C.site url with
      | none => some (s1, false)
      | some pg =>
        let s2 : CState := ⟨s1.visited, s1.fetched ++ [url], s1.attempted⟩
        match pg.imgs with
        | none => some (s2, false)
        | some images =>
          let valid_images := images.filter (fun u => is_valid_image u.data)
          let s3 : CState :=
            ⟨s2.visited, s2.fetched,
             s2.attempted ++ downloadLoopCaught C.dl valid_images⟩
          if depth < C.max_depth then
            match pg.links with
            | none => some (s3, false)
            | some links =>
              crawl_children (crawl_recursive C fuel) links (depth + 1) s3
          else some (s3, true)

/-- The recursive mode of `main` (main.rs lines 177-181): run
`crawl_recursive` on the seed at depth 0 with an empty visited set. -/
def crawlRun (C : Crawler) (fuel : Nat) (seed : String) :
    Option (CState × Bool) :=
  crawl_recursive C fuel seed 0 ⟨[], [], []⟩

/-- `Reach C seed n u`: the page `u` is reachable from `seed` in at most
`n` link hops, every hop leaving a page that fetches successfully through
its extracted link list. -/
inductive Reach (C : Crawler) : String → Nat → String → Prop where
  | here (u : String) (n : Nat) : Reach C u n u
  | step {u : String} {n : Nat} {v w : String} {pg : Page} {ls : List String} :
      Reach C u n v → C.site v = some pg → pg.links = some ls → w ∈ ls →
      Reach C u (n + 1) w

/-! ## Concrete data used by witnesses and counterexamples -/

/-- A two-page demo site: the seed links to a second page and back to
itself, and the second page links back to the seed (a cycle). -/
def siteAB : String → Option Page := fun u =>
  if u = "http://s/" then
    some ⟨some ["http://s/a.png", "http://s/bad.txt"],
          some ["http://s/p2", "http://s/"]⟩
  else if u = "http://s/p2" then
    some ⟨some [], some ["http://s/"]⟩
  else none

/-- Downloads that always succeed. -/
def dlAll : String → Bool := fun _ => true

/-- Downloads that always fail. -/
def dlNone : String → Bool := fun _ => false

/-- The demo crawler at the default depth limit 5. -/
def CAB : Crawler := ⟨siteAB, dlAll, 5⟩

/-- The demo crawler with every image download failing. -/
def CABfail : Crawler := ⟨siteAB, dlNone, 5⟩

/-- A one-page site with two valid images, for the flat-mode loop. -/
def siteFlat : String → Option Page := fun u =>
  if u = "http://s/" then
    some ⟨some ["http://s/a.png", "http://s/b.png"], some []⟩
  else none

/-- A base URL whose host is an IP address. -/
def ipBase : PUrl := ⟨some (UrlHost.ipv4 "127.0.0.1"), "http://127.0.0.1/"⟩

/-- A URL on a different IP-address host. -/
def ipOther : PUrl := ⟨some (UrlHost.ipv4 "192.168.1.1"), "http://192.168.1.1/x"⟩

/-- A join oracle resolving the one absolute `href` of the counterexample;
joining an absolute URL reference returns that URL. -/
def joinIp : String → Option PUrl := fun h =>
  if h = "http://192.168.1.1/x" then some ipOther else none

/-- A base URL with a named-domain host. -/
def namedBase : PUrl := ⟨some (UrlHost.domain "example.org"), "http://example.org/"⟩

/-- A same-domain page URL under the named host. -/
def namedLink : PUrl := ⟨some (UrlHost.domain "example.org"), "http://example.org/p"⟩

/-- Join oracle for the named-domain witness. -/
def joinNamed : String → Option PUrl := fun h =>
  if h = "/p" then some namedLink else none

/-- C6 counterexample URL: the decoded name is 212 bytes and everything
after its last dot is 211 bytes. -/
def c6url : List Nat := strB "http://x/a." ++ List.replicate 210 0x62

/-- C9 failing input: the decoded name is 205 bytes, with a three-byte
UTF-8 character (Euro sign, bytes E2 82 AC) crossing byte offset 196, the
truncation point for the four-byte extension `.png`. -/
def c9url : List Nat :=
  strB "http://x/" ++ List.replicate 195 0x61 ++ strB "%E2%82%ACbbb.png"

/-- A URL whose final character is the slash. -/
def c10url : List Nat := strB "http://x/dir/"

/-- The components of a crawl result that do not depend on the download
oracle: the visited set, the fetch log, and the `Ok`/`Err` outcome. -/
def ctrlOf (r : Option (CState × Bool)) :
    Option (List String × List String × Bool) :=
  r.map (fun p => (p.1.visited, p.1.fetched, p.2))

/-! ## Bridge lemmas between the Boolean string tests and Mathlib
predicates -/

theorem isPrefixB_iff (p s : List Char) : isPrefixB p s = true ↔ p <+: s := by
  induction p generalizing s with
  | nil => simp [isPrefixB, List.nil_prefix]
  | cons a as ih =>
    cases s with
    | nil => simp [isPrefixB]
    | cons b bs =>
      simp [isPrefixB, List.cons_prefix_cons, ih, And.comm]

theorem endsWithB_iff (suf s : List Char) :
    endsWithB suf s = true ↔ suf <:+ s := by
  rw [endsWithB, isPrefixB_iff, List.reverse_prefix]

theorem hasSub_iff (p s : List Char) : hasSub p s = true ↔ p <:+: s := by
  induction s with
  | nil => simp [hasSub, List.infix_nil, List.isEmpty_iff]
  | cons c rest ih =>
    simp [hasSub, List.infix_cons_iff, isPrefixB_iff, ih]

/-! ## C4 and C5: the image validator -/

/-- C4 counterexample: the claim states that
`isValidImage("http://x/icon.svg.png")` returns `true`; on the code the
`.svg` substring check fires first and it returns `false`. -/
theorem c4_counterexample :
    is_valid_image "http://x/icon.svg.png".data = false := by decide

/-- C4 amended: `isValidImage("http://x/icon.svg.png")` returns `false`:
although the query-stripped lower-cased URL ends with the recognized
extension `.png`, the `.svg` substring check runs on the full lower-cased
URL and takes precedence, rejecting the candidate. -/
theorem c4_amended :
    is_valid_image "http://x/icon.svg.png".data = false ∧
    valid_extensions.any
      (fun ext => endsWithB ext (stripQuery (toLowerL "http://x/icon.svg.png".data))) = true ∧
    hasSub ".svg".data (toLowerL "http://x/icon.svg.png".data) = true := by
  decide

/-- C5 counterexample: the claimed equivalence "returns true iff the
lower-cased URL truncated at the first question mark ends with one of the
five extensions" fails: `http://x/photo.svg.png` ends with `.png` after
query stripping and lower-casing, yet `is_valid_image` returns `false`. -/
theorem c5_counterexample :
    ".png".data ∈ valid_extensions ∧
    (".png".data <:+ stripQuery (toLowerL "http://x/photo.svg.png".data)) ∧
    is_valid_image "http://x/photo.svg.png".data = false := by decide

/-- C5 amended: `is_valid_image` returns `true` iff the lower-cased URL
truncated at the first question mark ends with one of `.jpg`, `.jpeg`,
`.png`, `.gif`, `.bmp` AND the full lower-cased URL does not contain the
substring `.svg`; in particular it is `true` on `http://x/a.JPG?size=big`
and `false` on `http://x/a.svg` and on `http://x/noext`. -/
theorem c5_amended :
    (∀ url : List Char,
      is_valid_image url = true ↔
        ((∃ ext ∈ valid_extensions, ext <:+ stripQuery (toLowerL url)) ∧
          ¬ (".svg".data <:+: toLowerL url))) ∧
    is_valid_image "http://x/a.JPG?size=big".data = true ∧
    is_valid_image "http://x/a.svg".data = false ∧
    is_valid_image "http://x/noext".data = false := by
  refine ⟨fun url => ?_, by decide, by decide, by decide⟩
  have hsvg := hasSub_iff ".svg".data (toLowerL url)
  simp only [is_valid_image]
  by_cases h : hasSub ".svg".data (toLowerL url) = true
  · rw [if_pos h]
    rw [hsvg] at h
    simp [h]
  · rw [if_neg h]
    rw [hsvg] at h  -- also works on the negation through the iff
    simp only [h, not_false_iff, and_true, List.any_eq_true]
    constructor
    · rintro ⟨e, he, hse⟩
      exact ⟨e, he, (endsWithB_iff e _).mp hse⟩
    · rintro ⟨e, he, hse⟩
      exact ⟨e, he, (endsWithB_iff e _).mpr hse⟩

/-! ## C6, C9, C10: the downloader filename derivation -/

theorem splitOnB_ne_nil (sep : Nat) (l : List Nat) : splitOnB sep l ≠ [] := by
  induction l with
  | nil => simp [splitOnB]
  | cons b rest ih =>
    simp only [splitOnB]
    by_cases h : b = sep
    · simp [h]
    · rw [if_neg h]
      cases hs : splitOnB sep rest with
      | nil => exact absurd hs ih
      | cons s ss => simp

theorem splitOnB_length_end (sep : Nat) (pre : List Nat) :
    2 ≤ (splitOnB sep (pre ++ [sep])).length := by
  induction pre with
  | nil => simp [splitOnB]
  | cons b pre2 ih =>
    simp only [List.cons_append, splitOnB]
    by_cases h : b = sep
    · rw [if_pos h]
      cases hs : splitOnB sep (pre2 ++ [sep]) with
      | nil => exact absurd hs (splitOnB_ne_nil sep _)
      | cons s ss => simp
    · rw [if_neg h]
      cases hs : splitOnB sep (pre2 ++ [sep]) with
      | nil => exact absurd hs (splitOnB_ne_nil sep _)
      | cons s ss =>
        rw [hs] at ih
        simp at ih ⊢
        omega

theorem splitOnB_getLast_end (sep : Nat) (pre : List Nat) :
    (splitOnB sep (pre ++ [sep])).getLast? = some [] := by
  induction pre with
  | nil => simp [splitOnB]
  | cons b pre2 ih =>
    simp only [List.cons_append, splitOnB]
    by_cases h : b = sep
    · rw [if_pos h]
      cases hs : splitOnB sep (pre2 ++ [sep]) with
      | nil => exact absurd hs (splitOnB_ne_nil sep _)
      | cons s ss =>
        rw [hs] at ih
        rw [List.getLast?_cons_cons, ih]
    · rw [if_neg h]
      cases hs : splitOnB sep (pre2 ++ [sep]) with
      | nil => exact absurd hs (splitOnB_ne_nil sep _)
      | cons s ss =>
        rw [hs] at ih
        have hlen := splitOnB_length_end sep pre2
        rw [hs] at hlen
        cases ss with
        | nil => simp at hlen
        | cons y ys =>
          rw [List.getLast?_cons_cons] at ih ⊢
          exact ih

set_option maxRecDepth 8000 in
/-- C6 counterexample: for the URL `http://x/a.` followed by 210 times `b`,
the decoded name is 212 bytes and everything from its last dot onward is
211 bytes, so `200 - ext.len()` saturates to 0 and the derived filename is
the 211-byte suffix itself: the claimed 200-byte total bound fails. -/
theorem c6_counterexample :
    derive_filename c6url = NameResult.ok (0x2E :: List.replicate 210 0x62) ∧
    200 < (0x2E :: List.replicate (210 : Nat) (0x62 : Nat)).length := by
  constructor
  · decide
  · simp

/-- C6 amended: the concrete example `http://x/path/name%20one.png?v=2`
does yield `name one.png`; and whenever the derivation returns a name, its
length is bounded by 200 bytes OR by the length of the decoded name's
final-dot suffix, whichever is larger, and for an over-long decoded name
the final-dot suffix is preserved. The unconditional 200 bound of the
original claim holds exactly when that suffix is at most 200 bytes. -/
theorem c6_amended :
    derive_filename (strB "http://x/path/name%20one.png?v=2") =
      NameResult.ok (strB "name one.png") ∧
    (∀ url d f, decodedName url = some d →
      derive_filename url = NameResult.ok f →
      f.length ≤ max 200 (extSuffix d).length ∧
        (200 < d.length → extSuffix d <:+ f)) := by
  refine ⟨by decide, fun url d f hd hf => ?_⟩
  simp only [derive_filename, hd] at hf
  by_cases hlen : d.length > 200
  · rw [if_pos hlen] at hf
    cases hdot : rfindDot d with
    | some p =>
      simp only [hdot] at hf
      cases hbt : byteTake d (200 - (d.drop p).length) with
      | none =>
        simp only [hbt] at hf
        simp at hf
      | some np =>
        simp only [hbt] at hf
        have hfe : f = np ++ d.drop p := by
          injection hf with h1
          exact h1.symm
        rw [byteTake] at hbt
        split at hbt
        · injection hbt with hnp
          have hext : extSuffix d = d.drop p := by
            rw [extSuffix, hdot]
          have hlnp : np.length = 200 - (d.length - p) := by
            rw [← hnp, List.length_take, List.length_drop]
            omega
          have hld : (d.drop p).length = d.length - p := List.length_drop p d
          constructor
          · rw [hfe, List.length_append, hext, hld]
            omega
          · intro _
            rw [hfe, hext]
            exact List.suffix_append np (d.drop p)
        · simp at hbt
    | none =>
      simp only [hdot] at hf
      cases hbt : byteTake d 200 with
      | none =>
        simp only [hbt] at hf
        simp at hf
      | some t =>
        simp only [hbt] at hf
        have hfe : f = t := by
          injection hf with h1
          exact h1.symm
        rw [byteTake] at hbt
        split at hbt
        · injection hbt with hnp
          constructor
          · rw [hfe, ← hnp, List.length_take]
            omega
          · intro _
            rw [extSuffix, hdot]
            exact List.nil_suffix
        · simp at hbt
  · rw [if_neg hlen] at hf
    have hfe : f = d := by
      injection hf with h1
      exact h1.symm
    constructor
    · rw [hfe]
      omega
    · intro hgt
      rw [hfe] at *
      omega

set_option maxRecDepth 8000 in
/-- C6 witness: the general bound of `c6_amended` applied to the concrete
example URL of the spec. -/
theorem c6_witness :
    (strB "name one.png").length ≤
      max 200 (extSuffix (strB "name one.png")).length ∧
    (200 < (strB "name one.png").length →
      extSuffix (strB "name one.png") <:+ strB "name one.png") :=
  c6_amended.2 (strB "http://x/path/name%20one.png?v=2")
    (strB "name one.png") (strB "name one.png") (by decide) (by decide)

set_option maxRecDepth 8000 in
/-- C9: the filename derivation is not total. On a URL whose decoded name
is 195 `a` bytes, a three-byte UTF-8 character, then `bbb.png` (205 bytes
in all), the slice `&filename[..200 - ext.len()]` takes byte index 196,
which falls inside the three-byte character: `filename[..196]` panics in
Rust, which the model returns as `NameResult.panic`. -/
theorem c9_panic : derive_filename c9url = NameResult.panic := by decide

/-- C10: splitting any URL string on `/` always yields at least one final
segment, so the `unwrap_or("image")` fallback is unreachable; and for any
URL whose final character is `/`, the derived filename is the empty
string. (The subsequent `File::create` on the directory path itself and
its I/O error live in the external filesystem capability, outside this
embedding.) -/
theorem c10_trailing_slash :
    ∀ url : List Nat,
      ((splitOnB 0x2F url).getLast?).isSome = true ∧
      (url.getLast? = some 0x2F → derive_filename url = NameResult.ok []) := by
  intro url
  constructor
  · rw [List.getLast?_isSome]
    exact splitOnB_ne_nil 0x2F url
  · intro hl
    have hne : url ≠ [] := by
      intro h
      rw [h] at hl
      simp at hl
    have hgl := List.getLast?_eq_getLast url hne
    rw [hl] at hgl
    have hglval : url.getLast hne = 0x2F := by
      injection hgl with h1
      exact h1.symm
    have hurl : url = url.dropLast ++ [0x2F] := by
      conv_lhs => rw [← List.dropLast_append_getLast hne]
      rw [hglval]
    have hseg : lastSegment url = [] := by
      rw [lastSegment, hurl, splitOnB_getLast_end]
    have hdec : decodedName url = some [] := by
      rw [decodedName, hseg]
      decide
    simp only [derive_filename, hdec]
    decide

/-- C10 witness: the theorem applied to the concrete URL
`http://x/dir/`. -/
theorem c10_witness :
    ((splitOnB 0x2F c10url).getLast?).isSome = true ∧
    derive_filename c10url = NameResult.ok [] :=
  ⟨(c10_trailing_slash c10url).1, (c10_trailing_slash c10url).2 (by decide)⟩

/-! ## C3: same-domain scoping of `find_links` -/

theorem find_links_mem (join : String → Option PUrl) (base : PUrl)
    (hrefs : List String) (u : PUrl) :
    u ∈ find_links join base hrefs ↔
      (∃ h ∈ hrefs, join h = some u) ∧ u.domainOf = base.domainOf := by
  induction hrefs with
  | nil => simp [find_links]
  | cons href rest ih =>
    cases hj : join href with
    | none =>
      simp only [find_links, hj]
      rw [ih]
      constructor
      · rintro ⟨⟨h, hh, hju⟩, hdom⟩
        exact ⟨⟨h, List.mem_cons_of_mem _ hh, hju⟩, hdom⟩
      · rintro ⟨⟨h, hh, hju⟩, hdom⟩
        rcases List.mem_cons.mp hh with rfl | hh2
        · rw [hj] at hju
          cases hju
        · exact ⟨⟨h, hh2, hju⟩, hdom⟩
    | some v =>
      simp only [find_links, hj]
      by_cases hd : v.domainOf = base.domainOf
      · rw [if_pos hd]
        simp only [List.mem_cons]
        constructor
        · rintro (rfl | hu)
          · exact ⟨⟨href, Or.inl rfl, hj⟩, hd⟩
          · rcases ih.mp hu with ⟨⟨h, hh, hju⟩, hdom⟩
            exact ⟨⟨h, Or.inr hh, hju⟩, hdom⟩
        · rintro ⟨⟨h, hh, hju⟩, hdom⟩
          rcases hh with rfl | hh2
          · rw [hj] at hju
            injection hju with h1
            exact Or.inl h1.symm
          · exact Or.inr (ih.mpr ⟨⟨h, hh2, hju⟩, hdom⟩)
      · rw [if_neg hd, ih]
        constructor
        · rintro ⟨⟨h, hh, hju⟩, hdom⟩
          exact ⟨⟨h, List.mem_cons_of_mem _ hh, hju⟩, hdom⟩
        · rintro ⟨⟨h, hh, hju⟩, hdom⟩
          rcases List.mem_cons.mp hh with rfl | hh2
          · rw [hj] at hju
            injection hju with h1
            rw [← h1] at hdom
            exact absurd hdom hd
          · exact ⟨⟨h, hh2, hju⟩, hdom⟩

/-- C3 counterexample: with a base URL on the IP host `127.0.0.1`, a link
resolving to the different IP host `192.168.1.1` is retained by
`find_links` (both hosts have `domain() = None`, and `None == None`), so a
link to a different host than the seed IS followed: the claimed host
equality fails for IP-address hosts. -/
theorem c3_counterexample :
    find_links joinIp ipBase ["http://192.168.1.1/x"] = [ipOther] ∧
    ipOther.host ≠ ipBase.host := by
  constructor
  · rfl
  · decide

/-- C3 amended: `find_links` retains exactly the anchors that resolve and
whose `domain()` equals the base `domain()`, where `domain()` is the host
component only when it is a named domain and `None` for IP hosts; links to
a different host are therefore never followed when the base host is a
named domain, but a base with an IP host compares equal to every other
domainless host, so cross-host links between IP addresses are followed. -/
theorem c3_amended :
    (∀ (join : String → Option PUrl) (base : PUrl) (hrefs : List String)
        (u : PUrl),
        u ∈ find_links join base hrefs ↔
          (∃ h ∈ hrefs, join h = some u) ∧ u.domainOf = base.domainOf) ∧
    (∀ (join : String → Option PUrl) (base : PUrl) (hrefs : List String)
        (u : PUrl) (dname : String),
        base.host = some (UrlHost.domain dname) →
        u ∈ find_links join base hrefs → u.host = base.host) := by
  refine ⟨find_links_mem, fun join base hrefs u dname hb hu => ?_⟩
  have hdom := ((find_links_mem join base hrefs u).mp hu).2
  simp only [PUrl.domainOf, hb] at hdom
  rw [hb]
  cases hh : u.host with
  | none =>
    simp only [hh] at hdom
    cases hdom
  | some host =>
    cases host with
    | domain d2 =>
      simp only [hh] at hdom
      injection hdom with h1
      rw [h1]
    | ipv4 a =>
      simp only [hh] at hdom
      cases hdom
    | ipv6 a =>
      simp only [hh] at hdom
      cases hdom

/-- C3 witness: for a named-domain base, a retained link has the same
host, by `c3_amended` at concrete data. -/
theorem c3_witness : namedLink.host = namedBase.host :=
  c3_amended.2 joinNamed namedBase ["/p"] namedLink "example.org"
    (by rfl) (by decide)

/-! ## C7: per-image error isolation -/

theorem downloadLoopCaught_attempts (dl : String → Bool) (us : List String) :
    (downloadLoopCaught dl us).map Prod.fst = us := by
  induction us with
  | nil => rfl
  | cons u us ih => simp [downloadLoopCaught, ih]

theorem crawl_children_ctrl
    (f1 f2 : String → Nat → CState → Option (CState × Bool))
    (hrec : ∀ url depth t1 t2, t1.visited = t2.visited →
      t1.fetched = t2.fetched → ctrlOf (f1 url depth t1) = ctrlOf (f2 url depth t2)) :
    ∀ ls depth s1 s2, s1.visited = s2.visited → s1.fetched = s2.fetched →
      ctrlOf (crawl_children f1 ls depth s1) =
      ctrlOf (crawl_children f2 ls depth s2) := by
  intro ls
  induction ls with
  | nil =>
    intro depth s1 s2 hv hf
    simp [crawl_children, ctrlOf, hv, hf]
  | cons l ls ih =>
    intro depth s1 s2 hv hf
    have h := hrec l depth s1 s2 hv hf
    simp only [crawl_children]
    cases h1 : f1 l depth s1 with
    | none =>
      rw [h1] at h
      cases h2 : f2 l depth s2 with
      | some p2 =>
        rw [h2] at h
        simp [ctrlOf] at h
      | none => rfl
    | some p1 =>
      rw [h1] at h
      cases h2 : f2 l depth s2 with
      | none =>
        rw [h2] at h
        simp [ctrlOf] at h
      | some p2 =>
        rw [h2] at h
        obtain ⟨t1, b1⟩ := p1
        obtain ⟨t2, b2⟩ := p2
        obtain ⟨hvv, hff, hbb⟩ :
            t1.visited = t2.visited ∧ t1.fetched = t2.fetched ∧ b1 = b2 := by
          simpa [ctrlOf] using h
        cases b1 with
        | false =>
          rw [← hbb]
          simp [ctrlOf, hvv, hff]
        | true =>
          rw [← hbb]
          exact ih depth t1 t2 hvv hff

theorem crawl_ctrl_indep (site : String → Option Page) (dl1 dl2 : String → Bool)
    (maxD : Nat) :
    ∀ fuel url depth s1 s2, s1.visited = s2.visited → s1.fetched = s2.fetched →
      ctrlOf (crawl_recursive ⟨site, dl1, maxD⟩ fuel url depth s1) =
      ctrlOf (crawl_recursive ⟨site, dl2, maxD⟩ fuel url depth s2) := by
  intro fuel
  induction fuel with
  | zero =>
    intro url depth s1 s2 hv hf
    rfl
  | succ f ih =>
    intro url depth s1 s2 hv hf
    simp only [crawl_recursive]
    by_cases hg : depth > maxD ∨ url ∈ s1.visited
    · have hg2 : depth > maxD ∨ url ∈ s2.visited := by rw [← hv]; exact hg
      rw [if_pos hg, if_pos hg2]
      simp [ctrlOf, hv, hf]
    · have hg2 : ¬ (depth > maxD ∨ url ∈ s2.visited) := by rw [← hv]; exact hg
      rw [if_neg hg, if_neg hg2]
      cases hsite : site url with
      | none => simp [hsite, ctrlOf, hv, hf]
      | some pg =>
        cases hoi : pg.imgs with
        | none => simp [hsite, hoi, ctrlOf, hv, hf]
        | some images =>
          by_cases hlt : depth < maxD
          · cases hol : pg.links with
            | none => simp [hsite, hoi, hol, ctrlOf, hv, hf, hlt]
            | some links =>
              simp only [hsite, hoi, hol, if_pos hlt]
              exact crawl_children_ctrl _ _
                (fun u2 d2 t1 t2 h1 h2 => ih u2 d2 t1 t2 h1 h2)
                links (depth + 1) _ _ (by simp [hv]) (by simp [hf])
          · simp [hsite, hoi, ctrlOf, hv, hf, hlt]

/-- C7 counterexample: in flat mode (main.rs line 195 uses the `?`
operator on `download_image`), a page with two valid images where the
first download fails attempts only the first image and aborts the run:
the remaining image of the page is never attempted, contradicting the
claim for flat mode. -/
theorem c7_counterexample :
    flatRun siteFlat dlNone "http://s/" = ([("http://s/a.png", false)], false) ∧
    (flatRun siteFlat dlNone "http://s/").1.map Prod.fst = ["http://s/a.png"] := by
  constructor
  · rfl
  · rfl

/-- C7 amended: in recursive mode a failed image download is caught at the
image granularity: the caught download loop attempts every image of the
page whatever the download outcomes, and the crawl control state (visited
set, fetch log, final `Ok`/`Err`) is entirely independent of the download
oracle. In flat mode, by contrast, the first failing download aborts the
run (see the counterexample). -/
theorem c7_amended :
    (∀ (dl : String → Bool) (us : List String),
      (downloadLoopCaught dl us).map Prod.fst = us) ∧
    (∀ (site : String → Option Page) (dl1 dl2 : String → Bool)
        (maxD fuel : Nat) (seed : String),
      ctrlOf (crawlRun ⟨site, dl1, maxD⟩ fuel seed) =
      ctrlOf (crawlRun ⟨site, dl2, maxD⟩ fuel seed)) :=
  ⟨downloadLoopCaught_attempts,
   fun site dl1 dl2 maxD fuel seed =>
     crawl_ctrl_indep site dl1 dl2 maxD fuel seed 0 ⟨[], [], []⟩ ⟨[], [], []⟩
       rfl rfl⟩

/-! ## C1: no page is fetched twice -/

theorem crawl_children_fetch_inv
    (f : String → Nat → CState → Option (CState × Bool))
    (hrec : ∀ url depth s r b, f url depth s = some (r, b) →
      s.fetched.Nodup → (∀ u ∈ s.fetched, u ∈ s.visited) →
      (r.fetched.Nodup ∧ (∀ u ∈ r.fetched, u ∈ r.visited) ∧
        ∀ u ∈ s.visited, u ∈ r.visited)) :
    ∀ ls depth s r b, crawl_children f ls depth s = some (r, b) →
      s.fetched.Nodup → (∀ u ∈ s.fetched, u ∈ s.visited) →
      (r.fetched.Nodup ∧ (∀ u ∈ r.fetched, u ∈ r.visited) ∧
        ∀ u ∈ s.visited, u ∈ r.visited) := by
  intro ls
  induction ls with
  | nil =>
    intro depth s r b h hnd hsub
    injection h with h1
    injection h1 with h4 h5
    rw [← h4]
    exact ⟨hnd, hsub, fun u hu => hu⟩
  | cons l ls ih =>
    intro depth s r b h hnd hsub
    simp only [crawl_children] at h
    cases h1 : f l depth s with
    | none =>
      rw [h1] at h
      cases h
    | some p =>
      rw [h1] at h
      obtain ⟨s2, b2⟩ := p
      obtain ⟨hnd2, hsub2, hmono2⟩ := hrec l depth s s2 b2 h1 hnd hsub
      cases b2 with
      | false =>
        injection h with h2
        injection h2 with h4 h5
        rw [← h4]
        exact ⟨hnd2, hsub2, hmono2⟩
      | true =>
        obtain ⟨hnd3, hsub3, hmono3⟩ := ih depth s2 r b h hnd2 hsub2
        exact ⟨hnd3, hsub3, fun u hu => hmono3 u (hmono2 u hu)⟩

theorem crawl_fetch_inv (C : Crawler) :
    ∀ fuel url depth s r b, crawl_recursive C fuel url depth s = some (r, b) →
      s.fetched.Nodup → (∀ u ∈ s.fetched, u ∈ s.visited) →
      (r.fetched.Nodup ∧ (∀ u ∈ r.fetched, u ∈ r.visited) ∧
        ∀ u ∈ s.visited, u ∈ r.visited) := by
  intro fuel
  induction fuel with
  | zero =>
    intro url depth s r b h
    cases h
  | succ f ih =>
    intro url depth s r b h hnd hsub
    simp only [crawl_recursive] at h
    by_cases hg : depth > C.max_depth ∨ url ∈ s.visited
    · rw [if_pos hg] at h
      injection h with h2
      injection h2 with h4 h5
      rw [← h4]
      exact ⟨hnd, hsub, fun u hu => hu⟩
    · rw [if_neg hg] at h
      have hnv : url ∉ s.visited := fun hc => hg (Or.inr hc)
      have hnf : url ∉ s.fetched := fun hc => hnv (hsub url hc)
      have hnd2 : (s.fetched ++ [url]).Nodup := by
        rw [List.nodup_append]
        exact ⟨hnd, List.nodup_singleton url,
          fun u hu hu2 => hnf (by rwa [List.mem_singleton.mp hu2] at hu)⟩
      have hsub2 : ∀ u ∈ s.fetched ++ [url], u ∈ url :: s.visited := by
        intro u hu
        rcases List.mem_append.mp hu with hu1 | hu2
        · exact List.mem_cons_of_mem _ (hsub u hu1)
        · rw [List.mem_singleton.mp hu2]
          exact List.mem_cons_self _ _
      cases hsite : C.site url with
      | none =>
        simp only [hsite] at h
        injection h with h2
        injection h2 with h4 h5
        rw [← h4]
        refine ⟨hnd, fun u hu => List.mem_cons_of_mem _ (hsub u hu),
          fun u hu => List.mem_cons_of_mem _ hu⟩
      | some pg =>
        simp only [hsite] at h
        cases hoi : pg.imgs with
        | none =>
          simp only [hoi] at h
          injection h with h2
          injection h2 with h4 h5
          rw [← h4]
          exact ⟨hnd2, hsub2, fun u hu => List.mem_cons_of_mem _ hu⟩
        | some images =>
          simp only [hoi] at h
          by_cases hlt : depth < C.max_depth
          · rw [if_pos hlt] at h
            cases hol : pg.links with
            | none =>
              simp only [hol] at h
              injection h with h2
              injection h2 with h4 h5
              rw [← h4]
              exact ⟨hnd2, hsub2, fun u hu => List.mem_cons_of_mem _ hu⟩
            | some links =>
              simp only [hol] at h
              obtain ⟨hnd3, hsub3, hmono3⟩ :=
                crawl_children_fetch_inv (crawl_recursive C f)
                  (fun u2 d2 t r2 b2 hcall => ih u2 d2 t r2 b2 hcall)
                  links (depth + 1) _ r b h hnd2 hsub2
              exact ⟨hnd3, hsub3,
                fun u hu => hmono3 u (List.mem_cons_of_mem _ hu)⟩
          · rw [if_neg hlt] at h
            injection h with h2
            injection h2 with h4 h5
            rw [← h4]
            exact ⟨hnd2, hsub2, fun u hu => List.mem_cons_of_mem _ hu⟩

/-- C1: in any run of the recursive crawl from an empty visited set, the
list of URLs fetched as pages contains no duplicates: a URL inserted into
the visited set is never fetched again, even across link cycles, because
the visited check guards the fetch and insertion precedes it. -/
theorem c1_no_duplicate_fetch :
    ∀ (C : Crawler) (fuel : Nat) (seed : String) (r : CState) (b : Bool),
      crawlRun C fuel seed = some (r, b) → r.fetched.Nodup := by
  intro C fuel seed r b h
  exact (crawl_fetch_inv C fuel seed 0 ⟨[], [], []⟩ r b h
    List.nodup_nil (by intro u hu; cases hu)).1

/-- C1 witness: the demo site contains a two-page cycle; the crawl at
depth limit 5 fetches each page exactly once. -/
theorem c1_witness : (["http://s/", "http://s/p2"] : List String).Nodup :=
  c1_no_duplicate_fetch CAB 7 "http://s/"
    ⟨["http://s/p2", "http://s/"], ["http://s/", "http://s/p2"],
     [("http://s/a.png", true)]⟩ true (by rfl)

/-! ## C2: the depth bound -/

theorem Reach.prepend {C : Crawler} {url l u : String} {pg : Page}
    {ls : List String} {k : Nat} (hsite : C.site url = some pg)
    (hl : pg.links = some ls) (hmem : l ∈ ls) (hr : Reach C l k u) :
    Reach C url (k + 1) u := by
  induction hr with
  | here x => exact Reach.step (Reach.here url _) hsite hl hmem
  | step hr2 hsite2 hl2 hmem2 ih => exact Reach.step ih hsite2 hl2 hmem2

theorem crawl_children_reach (C : Crawler)
    (f : String → Nat → CState → Option (CState × Bool)) (dd n : Nat)
    (hrec : ∀ url s r b, f url dd s = some (r, b) →
      ∀ u ∈ r.fetched, u ∈ s.fetched ∨ Reach C url n u) :
    ∀ ls s r b, crawl_children f ls dd s = some (r, b) →
      ∀ u ∈ r.fetched, u ∈ s.fetched ∨ ∃ l ∈ ls, Reach C l n u := by
  intro ls
  induction ls with
  | nil =>
    intro s r b h u hu
    injection h with h1
    injection h1 with h4 h5
    rw [← h4] at hu
    exact Or.inl hu
  | cons l ls ih =>
    intro s r b h u hu
    simp only [crawl_children] at h
    cases h1 : f l dd s with
    | none =>
      rw [h1] at h
      cases h
    | some p =>
      rw [h1] at h
      obtain ⟨s2, b2⟩ := p
      cases b2 with
      | false =>
        injection h with h2
        injection h2 with h4 h5
        rw [← h4] at hu
        rcases hrec l s s2 false h1 u hu with hin | hr
        · exact Or.inl hin
        · exact Or.inr ⟨l, List.mem_cons_self _ _, hr⟩
      | true =>
        rcases ih s2 r b h u hu with hin | ⟨l2, hl2, hr2⟩
        · rcases hrec l s s2 true h1 u hin with hin2 | hr
          · exact Or.inl hin2
          · exact Or.inr ⟨l, List.mem_cons_self _ _, hr⟩
        · exact Or.inr ⟨l2, List.mem_cons_of_mem _ hl2, hr2⟩

theorem crawl_reach (C : Crawler) :
    ∀ fuel url depth s r b,
      crawl_recursive C fuel url depth s = some (r, b) →
      ∀ u ∈ r.fetched, u ∈ s.fetched ∨ Reach C url (C.max_depth - depth) u := by
  intro fuel
  induction fuel with
  | zero =>
    intro url depth s r b h
    cases h
  | succ f ih =>
    intro url depth s r b h u hu
    simp only [crawl_recursive] at h
    by_cases hg : depth > C.max_depth ∨ url ∈ s.visited
    · rw [if_pos hg] at h
      injection h with h2
      injection h2 with h4 h5
      rw [← h4] at hu
      exact Or.inl hu
    · rw [if_neg hg] at h
      cases hsite : C.site url with
      | none =>
        simp only [hsite] at h
        injection h with h2
        injection h2 with h4 h5
        rw [← h4] at hu
        exact Or.inl hu
      | some pg =>
        simp only [hsite] at h
        cases hoi : pg.imgs with
        | none =>
          simp only [hoi] at h
          injection h with h2
          injection h2 with h4 h5
          rw [← h4] at hu
          rcases List.mem_append.mp hu with hu1 | hu2
          · exact Or.inl hu1
          · rw [List.mem_singleton.mp hu2]
            exact Or.inr (Reach.here url _)
        | some images =>
          simp only [hoi] at h
          by_cases hlt : depth < C.max_depth
          · rw [if_pos hlt] at h
            cases hol : pg.links with
            | none =>
              simp only [hol] at h
              injection h with h2
              injection h2 with h4 h5
              rw [← h4] at hu
              rcases List.mem_append.mp hu with hu1 | hu2
              · exact Or.inl hu1
              · rw [List.mem_singleton.mp hu2]
                exact Or.inr (Reach.here url _)
            | some links =>
              simp only [hol] at h
              have hch := crawl_children_reach C (crawl_recursive C f)
                (depth + 1) (C.max_depth - (depth + 1))
                (fun url2 s2 r2 b2 hcall => ih url2 (depth + 1) s2 r2 b2 hcall)
                links _ r b h u hu
              rcases hch with hin | ⟨l, hl, hr⟩
              · rcases List.mem_append.mp hin with hu1 | hu2
                · exact Or.inl hu1
                · rw [List.mem_singleton.mp hu2]
                  exact Or.inr (Reach.here url _)
              · have hre := Reach.prepend hsite hol hl hr
                have heq : C.max_depth - (depth + 1) + 1 = C.max_depth - depth := by
                  omega
                rw [heq] at hre
                exact Or.inr hre
          · rw [if_neg hlt] at h
            injection h with h2
            injection h2 with h4 h5
            rw [← h4] at hu
            rcases List.mem_append.mp hu with hu1 | hu2
            · exact Or.inl hu1
            · rw [List.mem_singleton.mp hu2]
              exact Or.inr (Reach.here url _)

/-- C2: every page fetched by a recursive crawl with depth limit
`max_depth` is reachable from the seed by a chain of at most `max_depth`
link hops; equivalently, a page all of whose link paths from the seed are
longer than `max_depth` is never fetched. Recursion passes `depth + 1`,
enters children only when `depth < max_depth`, and a call with
`depth > max_depth` returns before fetching. -/
theorem c2_depth_bound :
    ∀ (C : Crawler) (fuel : Nat) (seed : String) (r : CState) (b : Bool),
      crawlRun C fuel seed = some (r, b) →
      ∀ u ∈ r.fetched, Reach C seed C.max_depth u := by
  intro C fuel seed r b h u hu
  rcases crawl_reach C fuel seed 0 ⟨[], [], []⟩ r b h u hu with h1 | h2
  · cases h1
  · rwa [Nat.sub_zero] at h2

/-- C2 witness: on the demo site the second page, fetched by the crawl, is
reachable from the seed within the depth limit. -/
theorem c2_witness : Reach CAB "http://s/" 5 "http://s/p2" :=
  c2_depth_bound CAB 7 "http://s/"
    ⟨["http://s/p2", "http://s/"], ["http://s/", "http://s/p2"],
     [("http://s/a.png", true)]⟩ true (by rfl) "http://s/p2" (by decide)

/-! ## C8: termination of the recursive crawl -/

theorem crawl_children_total
    (f : String → Nat → CState → Option (CState × Bool)) (dd : Nat)
    (hrec : ∀ url s, (f url dd s).isSome = true) :
    ∀ ls s, (crawl_children f ls dd s).isSome = true := by
  intro ls
  induction ls with
  | nil => intro s; rfl
  | cons l ls ih =>
    intro s
    cases hres : crawl_children f (l :: ls) dd s with
    | some p => rfl
    | none =>
      exfalso
      simp only [crawl_children] at hres
      cases h1 : f l dd s with
      | none =>
        have h2 := hrec l s
        rw [h1] at h2
        simp at h2
      | some p =>
        simp only [h1] at hres
        obtain ⟨s2, b2⟩ := p
        cases b2 with
        | false => simp at hres
        | true =>
          simp only [] at hres
          have h3 := ih s2
          rw [hres] at h3
          simp at h3

theorem crawl_total (C : Crawler) :
    ∀ fuel depth, C.max_depth + 2 - depth ≤ fuel → 1 ≤ fuel →
      ∀ url s, (crawl_recursive C fuel url depth s).isSome = true := by
  intro fuel
  induction fuel with
  | zero =>
    intro depth hb h1
    omega
  | succ f ih =>
    intro depth hb h1 url s
    cases hres : crawl_recursive C (Nat.succ f) url depth s with
    | some p => rfl
    | none =>
      exfalso
      simp only [crawl_recursive] at hres
      by_cases hg : depth > C.max_depth ∨ url ∈ s.visited
      · rw [if_pos hg] at hres
        exact Option.noConfusion hres
      · rw [if_neg hg] at hres
        cases hsite : C.site url with
        | none =>
          simp only [hsite] at hres
          exact Option.noConfusion hres
        | some pg =>
          simp only [hsite] at hres
          cases hoi : pg.imgs with
          | none =>
            simp only [hoi] at hres
            exact Option.noConfusion hres
          | some images =>
            simp only [hoi] at hres
            by_cases hlt : depth < C.max_depth
            · rw [if_pos hlt] at hres
              cases hol : pg.links with
              | none =>
                simp only [hol] at hres
                exact Option.noConfusion hres
              | some links =>
                simp only [hol] at hres
                have h4 := crawl_children_total (crawl_recursive C f)
                  (depth + 1)
                  (fun url2 s2 => ih (depth + 1) (by omega) (by omega) url2 s2)
                  links
                  ⟨url :: s.visited, s.fetched ++ [url],
                   s.attempted ++ downloadLoopCaught C.dl
                     (images.filter (fun u => is_valid_image u.data))⟩
                rw [hres] at h4
                simp at h4
            · rw [if_neg hlt] at hres
              exact Option.noConfusion hres

/-- C8: the recursive crawl terminates on every site: with stack fuel
`max_depth + 2` (one frame per recursion level), `crawl_recursive` always
returns instead of running out of fuel, for every fetch oracle, download
oracle, seed URL and starting state. Each page yields a finite link list
and recursion is guarded by `depth < max_depth`, so the call depth of the
source recursion is bounded. -/
theorem c8_termination :
    ∀ (C : Crawler) (seed : String) (s : CState),
      (crawl_recursive C (C.max_depth + 2) seed 0 s).isSome = true := by
  intro C seed s
  exact crawl_total C (C.max_depth + 2) 0 (by omega) (by omega) seed s
